import Mathlib

/-!
Verification of the Dynamo-style distributed key-value store core.

The Go source is shallowly embedded: Go maps become association lists
(`List (key × value)`) whose well-formedness (`ClockWF`, distinct keys) mirrors
the Go map invariant; Go `int` becomes `Int`; Go `uint64` arithmetic becomes
`Nat` with explicit `% 2^64`/`% 2^32` reductions; wall-clock calls
(`time.Now()`) become explicit `now : Nat` parameters; network calls are
abstracted as oracles (`ack : String → Bool`, `remote : String → StoredValue`)
standing for the eventual outcome of `remotePut`/`remoteGet` retry loops.
Go `nil` interface values become `Option`; the `nil *VectorClock` guard paths
of the source are unreachable in this embedding because a clock is represented
by its (possibly empty) entry list, exactly as Go treats a nil map as empty
for reads.
-/

set_option maxRecDepth 8000

namespace Dynamo

/-! ## Vector clocks (backend/vector_clock.go, backend/node.go)

A `VectorClock.Clock` is a Go `map[string]int`; we embed it as an association
list with distinct keys. -/

/-- Embedding of the Go map `map[string]int` held in `VectorClock.Clock`. -/
abbrev Clock := List (String × Int)

/-- Go map read `c[n]` with presence flag: first matching entry. -/
def clockLookup (c : Clock) (n : String) : Option Int :=
  match c with
  | [] => none
  | (k, v) :: rest => if k = n then some v else clockLookup rest n

/-- Go map write `c[n] = v`: overwrite the entry for `n`, or add one. -/
def clockSet (c : Clock) (n : String) (v : Int) : Clock :=
  match c with
  | [] => [(n, v)]
  | (k, w) :: rest => if k = n then (k, v) :: rest else (k, w) :: clockSet rest n v

/-- A Go map never holds two entries for one key. -/
def ClockWF (c : Clock) : Prop := (c.map Prod.fst).Nodup

instance (c : Clock) : Decidable (ClockWF c) := by
  unfold ClockWF; infer_instance

/-- Loop body of `VectorClock.Merge`: adopt the other side's count when it is
absent locally or strictly larger (`if current, exists := vc.Clock[node]; !exists || count > current`). -/
def clockMergeStep (acc : Clock) (p : String × Int) : Clock :=
  match clockLookup acc p.1 with
  | none => clockSet acc p.1 p.2
  | some cur => if p.2 > cur then clockSet acc p.1 p.2 else acc

/-- Embedding of `(vc *VectorClock) Merge(other)`: fold the loop body over the
other clock's entries. -/
def Merge (vc other : Clock) : Clock :=
  other.foldl clockMergeStep vc

/-- Flag `aGreater`/`vcDominates`: both `compareVectorClocks` (node.go) and
`VectorClock.Compare` (vector_clock.go) set it by the same loop over the first
clock's entries: an entry strictly larger than, or missing from, the second
clock raises it. -/
def aGreaterFlag (a b : Clock) : Bool :=
  a.any (fun p =>
    match clockLookup b p.1 with
    | some bc => p.2 > bc
    | none => true)

/-- Flag `bGreater`/`otherDominates`: raised by an entry of the first clock
strictly smaller in the second, or by an entry of the second clock missing
from the first. -/
def bGreaterFlag (a b : Clock) : Bool :=
  (a.any (fun p =>
    match clockLookup b p.1 with
    | some bc => p.2 < bc
    | none => false))
  || b.any (fun p => (clockLookup a p.1).isNone)

/-- Embedding of `compareVectorClocks(a, b)` from node.go (non-nil receivers;
a nil map reads as the empty list). -/
def compareVectorClocks (a b : Clock) : String :=
  let aGreater := aGreaterFlag a b
  let bGreater := bGreaterFlag a b
  if aGreater && bGreater then "concurrent"
  else if bGreater then "newer"
  else "older"

/-- Embedding of `(vc *VectorClock) Compare(other)` from vector_clock.go for
non-nil receivers: `1` when `vc` dominates, `-1` when `other` dominates,
`0` otherwise. -/
def Compare (vc other : Clock) : Int :=
  let vcDominates := aGreaterFlag vc other
  let otherDominates := bGreaterFlag vc other
  if vcDominates && !otherDominates then 1
  else if !vcDominates && otherDominates then -1
  else 0

/-! ## Stored values and the storage collaborator (backend/node.go, storage) -/

/-- Embedding of `storedValue`: the opaque JSON payload becomes
`Option String` (`none` is Go's nil interface value). -/
structure StoredValue where
  value : Option String
  vectorClock : Clock
  conflicts : List StoredValue
  timestamp : Nat
deriving Repr

/-- Go's zero `storedValue{}` (nil value, nil clock, nil siblings). -/
def emptyStored : StoredValue := ⟨none, [], [], 0⟩

/-- The storage collaborator keyed by string, embedded as an association
list (the narrow `Storage` interface: `Get`/`Put`). -/
abbrev Storage := List (String × StoredValue)

/-- Embedding of `Storage.Get(key) → (storedValue, found?)`. -/
def storageGet (s : Storage) (k : String) : Option StoredValue :=
  match s with
  | [] => none
  | (k', v) :: rest => if k' = k then some v else storageGet rest k

/-- Embedding of `Storage.Put(key, value)`: overwrite or append. -/
def storagePut (s : Storage) (k : String) (v : StoredValue) : Storage :=
  match s with
  | [] => [(k, v)]
  | (k', w) :: rest => if k' = k then (k', v) :: rest else (k', w) :: storagePut rest k v

/-- Embedding of `(c *Coordinator) localPut(key, value, vc)` with
`time.Now()` passed in as `now`.  The returned `Bool` is the Go success
result (storage writes cannot fail in the embedding); the second component is
the updated storage. -/
def localPut (store : Storage) (key : String) (value : Option String)
    (vc : Clock) (now : Nat) : Bool × Storage :=
  let newValue : StoredValue := ⟨value, vc, [], now⟩
  match storageGet store key with
  | some existing =>
      match compareVectorClocks existing.vectorClock vc with
      | "concurrent" =>
          -- save the old value as a sibling and merge the clocks
          let merged := Merge vc existing.vectorClock
          let nv : StoredValue :=
            { newValue with
              conflicts := existing.conflicts ++ [existing]
              vectorClock := merged }
          (true, storagePut store key nv)
      | "older" =>
          -- new value is older, keep existing
          (true, store)
      | _ => (true, storagePut store key newValue)
  | none => (true, storagePut store key newValue)

/-! ## Basic lookup lemmas -/

theorem clockLookup_mem {c : Clock} {n : String} {v : Int}
    (h : clockLookup c n = some v) : (n, v) ∈ c := by
  induction c with
  | nil => simp [clockLookup] at h
  | cons p rest ih =>
    obtain ⟨k, w⟩ := p
    by_cases hk : k = n
    · subst hk
      simp [clockLookup] at h
      subst h
      exact List.mem_cons_self _ _
    · simp [clockLookup, hk] at h
      exact List.mem_cons_of_mem _ (ih h)

theorem clockLookup_isSome_of_mem {c : Clock} {p : String × Int}
    (h : p ∈ c) : (clockLookup c p.1).isSome := by
  induction c with
  | nil => simp at h
  | cons q rest ih =>
    obtain ⟨k, w⟩ := q
    rcases List.mem_cons.mp h with h | h
    · subst h
      simp [clockLookup]
    · by_cases hk : k = p.1
      · simp [clockLookup, hk]
      · simpa [clockLookup, hk] using ih h

theorem clockWF_cons {k : String} {w : Int} {rest : Clock}
    (h : ClockWF ((k, w) :: rest)) : k ∉ rest.map Prod.fst ∧ ClockWF rest := by
  unfold ClockWF at h
  rw [List.map_cons] at h
  exact List.nodup_cons.mp h

theorem clockLookup_eq_none_of_not_mem {c : Clock} {n : String}
    (h : n ∉ c.map Prod.fst) : clockLookup c n = none := by
  induction c with
  | nil => rfl
  | cons p rest ih =>
    obtain ⟨k, w⟩ := p
    rw [List.map_cons] at h
    have h1 : n ≠ k := fun hn => h (hn ▸ List.mem_cons_self _ _)
    have h2 : n ∉ rest.map Prod.fst := fun hn => h (List.mem_cons_of_mem _ hn)
    simp only [clockLookup]
    rw [if_neg (Ne.symm h1)]
    exact ih h2

theorem clockLookup_of_mem_wf {c : Clock} {p : String × Int}
    (hwf : ClockWF c) (h : p ∈ c) : clockLookup c p.1 = some p.2 := by
  induction c with
  | nil => simp at h
  | cons q rest ih =>
    obtain ⟨k, w⟩ := q
    obtain ⟨hk, hwf'⟩ := clockWF_cons hwf
    rcases List.mem_cons.mp h with h | h
    · subst h
      simp [clockLookup]
    · have hne : k ≠ p.1 := by
        intro he
        exact hk (by rw [he]; exact List.mem_map_of_mem Prod.fst h)
      simp only [clockLookup]
      rw [if_neg hne]
      exact ih hwf' h

theorem clockLookup_clockSet (c : Clock) (n : String) (v : Int) (m : String) :
    clockLookup (clockSet c n v) m = if m = n then some v else clockLookup c m := by
  induction c with
  | nil =>
    by_cases h : m = n
    · subst h; simp [clockSet, clockLookup]
    · simp [clockSet, clockLookup, h, Ne.symm h]
  | cons p rest ih =>
    obtain ⟨k, w⟩ := p
    by_cases hk : k = n
    · subst hk
      by_cases hm : m = k
      · subst hm
        simp [clockSet, clockLookup]
      · simp [clockSet, clockLookup, hm, Ne.symm hm]
    · by_cases hm : m = k
      · subst hm
        simp [clockSet, clockLookup, hk, Ne.symm hk]
      · simp [clockSet, clockLookup, hk, hm, Ne.symm hm, ih]

/-! ## Component-wise max characterisation of Merge -/

/-- Component-wise maximum on optional counters: the union of the two entry
sets, taking the larger counter where both are present. -/
def combineMax : Option Int → Option Int → Option Int
  | some x, some y => some (max x y)
  | some x, none => some x
  | none, some y => some y
  | none, none => none

theorem clockLookup_mergeStep (a : Clock) (q : String × Int) (n : String) :
    clockLookup (clockMergeStep a q) n =
      if n = q.1 then combineMax (clockLookup a q.1) (some q.2)
      else clockLookup a n := by
  obtain ⟨k, v⟩ := q
  simp only [clockMergeStep]
  cases ha : clockLookup a k with
  | none =>
    rw [clockLookup_clockSet]
    by_cases hn : n = k
    · subst hn; simp [ha, combineMax]
    · simp [hn]
  | some cur =>
    by_cases hv : v > cur
    · simp only [if_pos hv]
      rw [clockLookup_clockSet]
      by_cases hn : n = k
      · subst hn
        simp [ha, combineMax, max_eq_right (le_of_lt hv)]
      · simp [hn]
    · simp only [if_neg hv]
      by_cases hn : n = k
      · subst hn
        simp [ha, combineMax, max_eq_left (le_of_not_lt hv)]
      · simp [hn]

theorem clockLookup_merge (a b : Clock) (hb : ClockWF b) (n : String) :
    clockLookup (Merge a b) n = combineMax (clockLookup a n) (clockLookup b n) := by
  induction b generalizing a with
  | nil =>
    simp only [Merge, List.foldl_nil, clockLookup]
    cases clockLookup a n <;> rfl
  | cons q rest ih =>
    obtain ⟨k, v⟩ := q
    obtain ⟨hk, hwf'⟩ := clockWF_cons hb
    have hfold : Merge a ((k, v) :: rest) = Merge (clockMergeStep a (k, v)) rest := rfl
    rw [hfold, ih _ hwf', clockLookup_mergeStep]
    by_cases hn : n = k
    · subst hn
      have hnone : clockLookup rest n = none := clockLookup_eq_none_of_not_mem hk
      rw [hnone]
      simp only [clockLookup, if_pos rfl]
      cases clockLookup a n <;> rfl
    · simp only [if_neg hn, clockLookup]
      rw [if_neg (Ne.symm hn)]

/-! ## C1: local write application -/

theorem storageGet_storagePut (s : Storage) (k : String) (v : StoredValue) :
    storageGet (storagePut s k v) k = some v := by
  induction s with
  | nil => simp [storagePut, storageGet]
  | cons p rest ih =>
    obtain ⟨k', w⟩ := p
    by_cases h : k' = k
    · subst h; simp [storagePut, storageGet]
    · simp [storagePut, storageGet, h, ih]

/-- The code-level strict-dominance relation: the flag the first clock raises
is set and the flag the second clock raises is not (this is exactly when
`compareVectorClocks` answers by the first clock being strictly newer). -/
def codeDominates (a b : Clock) : Prop :=
  aGreaterFlag a b = true ∧ bGreaterFlag a b = false

instance (a b : Clock) : Decidable (codeDominates a b) := by
  unfold codeDominates; infer_instance

/-- C1. Local write application (`localPut`) on a key with an existing stored
value.  If the incoming clock is concurrent with the stored one, the incoming
value becomes the principal, the previously stored value is appended to the
stored siblings list, and the resulting clock is the component-wise max of the
incoming and stored clocks.  If the stored clock strictly dominates the
incoming one, the call reports success and leaves the store unchanged. -/
theorem localPut_conflict_and_dominance
    (store : Storage) (key : String) (value : Option String) (vc : Clock)
    (now : Nat) (existing : StoredValue)
    (hex : storageGet store key = some existing)
    (hwb : ClockWF existing.vectorClock) :
    (compareVectorClocks existing.vectorClock vc = "concurrent" →
      (localPut store key value vc now).1 = true ∧
      storageGet (localPut store key value vc now).2 key =
        some ⟨value, Merge vc existing.vectorClock,
              existing.conflicts ++ [existing], now⟩ ∧
      (∀ n, clockLookup (Merge vc existing.vectorClock) n =
        combineMax (clockLookup vc n) (clockLookup existing.vectorClock n))) ∧
    (codeDominates existing.vectorClock vc →
      localPut store key value vc now = (true, store)) := by
  constructor
  · intro hconc
    refine ⟨?_, ?_, fun n => clockLookup_merge _ _ hwb n⟩
    · simp only [localPut, hex, hconc]
    · simp only [localPut, hex, hconc]
      exact storageGet_storagePut _ _ _
  · intro hdom
    obtain ⟨ha, hb⟩ := hdom
    have hcmp : compareVectorClocks existing.vectorClock vc = "older" := by
      simp [compareVectorClocks, ha, hb]
    simp only [localPut, hex, hcmp]

theorem localPut_conflict_and_dominance_witness :
    storageGet (localPut [("k", ⟨some "old", [("B", (1 : Int))], [], 0⟩)] "k"
        (some "new") [("A", 1)] 7).2 "k" =
      some ⟨some "new", Merge [("A", 1)] [("B", 1)],
        [⟨some "old", [("B", 1)], [], 0⟩], 7⟩ :=
  ((localPut_conflict_and_dominance
      [("k", ⟨some "old", [("B", 1)], [], 0⟩)] "k" (some "new") [("A", 1)] 7
      ⟨some "old", [("B", 1)], [], 0⟩ (by rfl) (by decide)).1 (by rfl)).2.1

/-! ## C2: Compare is a partial order -/

/-- The value a clock assigns to a node, missing entries read as 0. -/
def clockVal (c : Clock) (n : String) : Int :=
  (clockLookup c n).getD 0

/-- Modelled from the spec: the standard vector-clock domination order,
`A dominates B iff ∀ n: A[n] ≥ B[n] and ∃ n: A[n] > B[n]`, missing entries
read as 0.  This is the relation the claim says `Compare` implements; it is
kept separate from the code-derived definitions so the two can be compared. -/
def specDominates (a b : Clock) : Prop :=
  (∀ n, clockVal b n ≤ clockVal a n) ∧ (∃ n, clockVal b n < clockVal a n)

/-- Every explicit entry of the clock is a positive counter (what `Increment`
produces and the spec's monotone counters maintain). -/
def ClockPos (c : Clock) : Prop := ∀ p ∈ c, 1 ≤ p.2

instance (c : Clock) : Decidable (ClockPos c) := by
  unfold ClockPos; infer_instance

theorem bGreaterFlag_eq_false_iff {a b : Clock} (hwa : ClockWF a) :
    bGreaterFlag a b = false ↔
      ∀ n v, clockLookup b n = some v →
        ∃ w, clockLookup a n = some w ∧ v ≤ w := by
  unfold bGreaterFlag
  rw [Bool.or_eq_false_iff]
  constructor
  · rintro ⟨h1, h2⟩ n v hb
    rw [List.any_eq_false] at h1 h2
    have hmem : (n, v) ∈ b := clockLookup_mem hb
    obtain ⟨w, hw⟩ : ∃ w, clockLookup a n = some w := by
      have h2' : ¬ (clockLookup a n).isNone = true := h2 _ hmem
      cases hA : clockLookup a n with
      | none => rw [hA] at h2'; exact absurd rfl h2'
      | some w => exact ⟨w, rfl⟩
    refine ⟨w, hw, ?_⟩
    have hmemw : (n, w) ∈ a := clockLookup_mem hw
    have := h1 _ hmemw
    simp only [hb] at this
    simpa using this
  · intro h
    constructor
    · rw [List.any_eq_false]
      rintro ⟨n, w⟩ hmem
      have hla : clockLookup a n = some w := clockLookup_of_mem_wf hwa hmem
      cases hb : clockLookup b n with
      | none => simp [hb]
      | some v =>
        obtain ⟨w', hw', hvw⟩ := h n v hb
        rw [hla] at hw'
        injection hw' with hw'
        subst hw'
        simp [hb]
        omega
    · rw [List.any_eq_false]
      rintro ⟨n, v⟩ hmem
      obtain ⟨w', hlb⟩ := Option.isSome_iff_exists.mp (clockLookup_isSome_of_mem hmem)
      obtain ⟨w, hw, _⟩ := h n w' hlb
      simp [hw]

theorem aGreaterFlag_eq_true_iff {a b : Clock} (hwa : ClockWF a) :
    aGreaterFlag a b = true ↔
      ∃ n w, clockLookup a n = some w ∧
        (clockLookup b n = none ∨ ∃ v, clockLookup b n = some v ∧ v < w) := by
  unfold aGreaterFlag
  rw [List.any_eq_true]
  constructor
  · rintro ⟨⟨n, w⟩, hmem, hflag⟩
    refine ⟨n, w, clockLookup_of_mem_wf hwa hmem, ?_⟩
    cases hb : clockLookup b n with
    | none => exact Or.inl rfl
    | some v =>
      right
      refine ⟨v, rfl, ?_⟩
      simp only [hb] at hflag
      simpa using hflag
  · rintro ⟨n, w, ha, hcase⟩
    refine ⟨(n, w), clockLookup_mem ha, ?_⟩
    rcases hcase with hb | ⟨v, hb, hv⟩
    · simp [hb]
    · simp [hb]
      omega

theorem compare_eq_one_iff (a b : Clock) :
    Compare a b = 1 ↔ codeDominates a b := by
  unfold Compare codeDominates
  rcases ha : aGreaterFlag a b with _ | _ <;>
    rcases hb : bGreaterFlag a b with _ | _ <;> simp

/-- Semantic characterisation of the code-level dominance: the second clock's
explicit entries are all present and no larger in the first, and the first has
an entry missing from, or strictly above, the second. -/
theorem codeDominates_iff {a b : Clock} (hwa : ClockWF a) :
    codeDominates a b ↔
      ((∀ n v, clockLookup b n = some v →
          ∃ w, clockLookup a n = some w ∧ v ≤ w) ∧
       (∃ n w, clockLookup a n = some w ∧
          (clockLookup b n = none ∨ ∃ v, clockLookup b n = some v ∧ v < w))) := by
  unfold codeDominates
  rw [aGreaterFlag_eq_true_iff hwa, bGreaterFlag_eq_false_iff hwa]
  exact and_comm

/-- C2 (amended).  `Compare` is reflexive (reporting neither side dominating),
never reports mutual domination, and its dominance relation is transitive; on
clocks whose explicit entries are positive counters it coincides with the
standard partial order (missing entries read as 0).  Clock well-formedness
(`ClockWF`, distinct keys) is the Go map representation invariant. -/
theorem compare_partial_order :
    (∀ a : Clock, ClockWF a → Compare a a = 0) ∧
    (∀ a b : Clock, ClockWF a → ClockWF b →
      Compare a b = 1 → ¬ (Compare b a = 1)) ∧
    (∀ a b c : Clock, ClockWF a → ClockWF b → ClockWF c →
      Compare a b = 1 → Compare b c = 1 → Compare a c = 1) ∧
    (∀ a b : Clock, ClockWF a → ClockWF b → ClockPos a → ClockPos b →
      (Compare a b = 1 ↔ specDominates a b)) := by
  have hrefl : ∀ a : Clock, ClockWF a → Compare a a = 0 := by
    intro a hwa
    have ha : aGreaterFlag a a = false := by
      rcases h : aGreaterFlag a a with _ | _
      · rfl
      · exfalso
        obtain ⟨n, w, hl, hc⟩ := (aGreaterFlag_eq_true_iff hwa).mp h
        rcases hc with hc | ⟨v, hv, hlt⟩
        · rw [hl] at hc; cases hc
        · rw [hl] at hv
          injection hv with hv
          omega
    have hb : bGreaterFlag a a = false := by
      rw [bGreaterFlag_eq_false_iff hwa]
      intro n v hv
      exact ⟨v, hv, le_refl v⟩
    simp [Compare, ha, hb]
  refine ⟨hrefl, ?_, ?_, ?_⟩
  · intro a b hwa hwb hab hba
    obtain ⟨h1, n, w, ha, hc⟩ := (codeDominates_iff hwa).mp
      ((compare_eq_one_iff a b).mp hab)
    obtain ⟨h1', _⟩ := (codeDominates_iff hwb).mp
      ((compare_eq_one_iff b a).mp hba)
    obtain ⟨u, hu, hwu⟩ := h1' n w ha
    rcases hc with hc | ⟨v, hv, hlt⟩
    · rw [hu] at hc; cases hc
    · rw [hu] at hv
      injection hv with hv
      omega
  · intro a b c hwa hwb hwc hab hbc
    obtain ⟨hab1, nab, wab, haab, hcab⟩ := (codeDominates_iff hwa).mp
      ((compare_eq_one_iff a b).mp hab)
    obtain ⟨hbc1, _, _, _, _⟩ := (codeDominates_iff hwb).mp
      ((compare_eq_one_iff b c).mp hbc)
    rw [compare_eq_one_iff, codeDominates_iff hwa]
    constructor
    · intro n v hcn
      obtain ⟨u, hbu, hvu⟩ := hbc1 n v hcn
      obtain ⟨w, haw, huw⟩ := hab1 n u hbu
      exact ⟨w, haw, le_trans hvu huw⟩
    · refine ⟨nab, wab, haab, ?_⟩
      rcases hcab with hb | ⟨v, hbv, hvlt⟩
      · cases hcn : clockLookup c nab with
        | none => exact Or.inl rfl
        | some v =>
          obtain ⟨u, hbu, _⟩ := hbc1 nab v hcn
          rw [hb] at hbu; cases hbu
      · cases hcn : clockLookup c nab with
        | none => exact Or.inl rfl
        | some v' =>
          obtain ⟨u, hbu, hvu⟩ := hbc1 nab v' hcn
          rw [hbv] at hbu
          injection hbu with hbu
          exact Or.inr ⟨v', rfl, by omega⟩
  · intro a b hwa hwb hpa hpb
    rw [compare_eq_one_iff, codeDominates_iff hwa]
    constructor
    · rintro ⟨h1, n, w, ha, hc⟩
      constructor
      · intro m
        cases hbm : clockLookup b m with
        | none =>
          simp only [clockVal, hbm, Option.getD_none]
          cases ham : clockLookup a m with
          | none => simp
          | some u =>
            have : 1 ≤ u := hpa _ (clockLookup_mem ham)
            simp only [ham, Option.getD_some]
            omega
        | some v =>
          obtain ⟨u, hau, hvu⟩ := h1 m v hbm
          simp only [clockVal, hbm, hau, Option.getD_some]
          exact hvu
      · refine ⟨n, ?_⟩
        have hw1 : 1 ≤ w := hpa _ (clockLookup_mem ha)
        rcases hc with hb | ⟨v, hb, hlt⟩
        · simp only [clockVal, ha, hb, Option.getD_some, Option.getD_none]
          omega
        · simp only [clockVal, ha, hb, Option.getD_some]
          exact hlt
    · rintro ⟨h1, n, hstrict⟩
      constructor
      · intro m v hbm
        have hv1 : 1 ≤ v := hpb _ (clockLookup_mem hbm)
        have := h1 m
        simp only [clockVal, hbm, Option.getD_some] at this
        cases ham : clockLookup a m with
        | none =>
          rw [ham] at this
          simp at this
          omega
        | some u =>
          rw [ham] at this
          simp at this
          exact ⟨u, rfl, this⟩
      · have hpos : 0 < clockVal a n := by
          have hb0 : 0 ≤ clockVal b n := by
            cases hbn : clockLookup b n with
            | none => simp [clockVal, hbn]
            | some v =>
              have := hpb _ (clockLookup_mem hbn)
              simp only [clockVal, hbn, Option.getD_some]
              omega
          omega
        cases han : clockLookup a n with
        | none => simp [clockVal, han] at hpos
        | some w =>
          refine ⟨n, w, han, ?_⟩
          cases hbn : clockLookup b n with
          | none => exact Or.inl rfl
          | some v =>
            refine Or.inr ⟨v, rfl, ?_⟩
            simp only [clockVal, han, hbn, Option.getD_some] at hstrict
            exact hstrict

/-- Counterexample to C2 as stated: an explicit zero entry counts as
domination for `Compare` (map membership is information), while the standard
order with missing-read-as-0 makes the two clocks equal. -/
theorem compare_zero_entry_counterexample :
    Compare [("a", (0 : Int))] [] = 1 ∧ ¬ specDominates [("a", (0 : Int))] [] := by
  constructor
  · rfl
  · rintro ⟨_, n, hn⟩
    have hb : clockVal [] n = 0 := rfl
    have ha : clockVal [("a", (0 : Int))] n ≤ 0 := by
      unfold clockVal
      by_cases h : "a" = n <;> simp [clockLookup, h]
    omega

theorem compare_partial_order_witness :
    Compare [("x", (2 : Int))] [("x", (2 : Int))] = 0 ∧
    ¬ (Compare [("x", (1 : Int))] [("x", (2 : Int))] = 1) ∧
    Compare [("x", (3 : Int))] [("x", (1 : Int))] = 1 ∧
    specDominates [("x", (2 : Int))] [("x", (1 : Int))] :=
  ⟨compare_partial_order.1 [("x", 2)] (by decide),
   compare_partial_order.2.1 [("x", 2)] [("x", 1)] (by decide) (by decide)
     (by decide),
   compare_partial_order.2.2.1 [("x", 3)] [("x", 2)] [("x", 1)] (by decide)
     (by decide) (by decide) (by decide) (by decide),
   (compare_partial_order.2.2.2 [("x", 2)] [("x", 1)] (by decide) (by decide)
     (by decide) (by decide)).mp (by decide)⟩

/-! ## Hinted handoff store (backend/node.go: HintedWrite, storeHint) -/

/-- Embedding of `HintedWrite`. -/
structure HintedWrite where
  key : String
  value : Option String
  vectorClock : Clock
  targetNode : String
  timestamp : Nat
  attempts : Nat
deriving Repr

/-- The `Coordinator.Hints` map (`map[string][]HintedWrite`), keyed by
target node. -/
abbrev HintsMap := List (String × List HintedWrite)

/-- Go map read with zero-value default: a missing target has no hints. -/
def hintsGet (hs : HintsMap) (target : String) : List HintedWrite :=
  match hs with
  | [] => []
  | (t, l) :: rest => if t = target then l else hintsGet rest target

/-- Go map write for the hints map. -/
def hintsSet (hs : HintsMap) (target : String) (l : List HintedWrite) : HintsMap :=
  match hs with
  | [] => [(target, l)]
  | (t, l') :: rest =>
      if t = target then (t, l) :: rest else (t, l') :: hintsSet rest target l

/-- Go constant `hintStorageLimit`. -/
def hintStorageLimit : Nat := 1000

/-- Embedding of `(c *Coordinator) storeHint(targetNode, key, value, vc)`:
when the target's buffer has reached the limit the oldest entry is rotated
out, then the new hint is appended (`vc.Clone()` is the identity in the pure
embedding; `time.Now()` is `now`). -/
def storeHint (hs : HintsMap) (targetNode key : String) (value : Option String)
    (vc : Clock) (now : Nat) : HintsMap :=
  let cur := hintsGet hs targetNode
  let cur := if cur.length ≥ hintStorageLimit then cur.drop 1 else cur
  hintsSet hs targetNode (cur ++ [⟨key, value, vc, targetNode, now, 0⟩])

theorem hintsGet_hintsSet (hs : HintsMap) (t : String) (l : List HintedWrite)
    (t' : String) :
    hintsGet (hintsSet hs t l) t' = if t' = t then l else hintsGet hs t' := by
  induction hs with
  | nil =>
    by_cases h : t' = t
    · subst h; simp [hintsSet, hintsGet]
    · simp [hintsSet, hintsGet, h, Ne.symm h]
  | cons p rest ih =>
    obtain ⟨k, l'⟩ := p
    by_cases hk : k = t
    · subst hk
      by_cases hm : t' = k
      · subst hm; simp [hintsSet, hintsGet]
      · simp [hintsSet, hintsGet, hm, Ne.symm hm]
    · by_cases hm : t' = k
      · subst hm
        simp [hintsSet, hintsGet, hk, Ne.symm hk]
      · simp [hintsSet, hintsGet, hk, hm, Ne.symm hm, ih]

/-! ## Local reads (backend/node.go: localGet; backend/main.go: InternalGetHandler) -/

/-- The hint-scanning loop of `localGet`: the first buffered hint (over all
targets) whose key matches.  Go iterates the map in unspecified order; the
embedding fixes the entry order of the association list, and the theorems
only use that the returned hint is some matching member. -/
def hintScan (hs : HintsMap) (key : String) : Option HintedWrite :=
  match hs with
  | [] => none
  | (_, hints) :: rest =>
      match hints.find? (fun h => h.key = key) with
      | some h => some h
      | none => hintScan rest key

/-- Result of the hint branch of `localGet`. -/
def hintFallback (hs : HintsMap) (key : String) : StoredValue :=
  match hintScan hs key with
  | some h => ⟨h.value, h.vectorClock, [], h.timestamp⟩
  | none => emptyStored

/-- Embedding of `(c *Coordinator) localGet(key)`: main storage first, then
the hint buffers (sloppy-quorum read), otherwise the zero `storedValue`. -/
def localGet (store : Storage) (hs : HintsMap) (key : String) : StoredValue :=
  match storageGet store key with
  | some val => if val.value.isSome then val else hintFallback hs key
  | none => hintFallback hs key

/-! ## Coordinator reads (backend/node.go: Get and helpers) -/

/-- Result map returned by `formatResult` (`value`, `vector_clock`, and a
`conflicts` list of sibling values only when conflicts were counted). -/
structure GetResult where
  value : Option String
  vectorClock : Clock
  conflicts : Option (List (Option String))
deriving Repr

/-- Embedding of `(c *Coordinator) formatResult(value, conflicts)`. -/
def formatResult (v : StoredValue) (conflicts : Nat) : GetResult :=
  ⟨v.value, v.vectorClock,
   if conflicts > 0 then some (v.conflicts.map (fun c => c.value)) else none⟩

/-- Embedding of `retrieveValue`: the local node answers from `localGet`, any
other node through the `remote` oracle, which stands for the final outcome of
`remoteGetWithRetry` (an empty `StoredValue` when every attempt failed). -/
def retrieveValue (selfID : String) (store : Storage) (hs : HintsMap)
    (remote : String → StoredValue) (nid key : String) : StoredValue :=
  if nid = selfID then localGet store hs key else remote nid

/-- Embedding of `gatherResponses`: only non-nil values are collected. -/
def gatherResponses (selfID : String) (store : Storage) (hs : HintsMap)
    (remote : String → StoredValue) (nodes : List String) (key : String) :
    List (String × StoredValue) :=
  nodes.filterMap (fun nid =>
    let sv := retrieveValue selfID store hs remote nid key
    if sv.value.isSome then some (nid, sv) else none)

/-- Embedding of `mergeConflicts(a, b)`. -/
def mergeConflicts (a b : StoredValue) (now : Nat) : StoredValue :=
  { a with
    vectorClock := Merge a.vectorClock b.vectorClock
    conflicts := a.conflicts ++ [b]
    timestamp := now }

/-- Loop body of `resolveConflicts`. -/
def resolveStep (now : Nat) (acc : StoredValue × Nat) (p : String × StoredValue) :
    StoredValue × Nat :=
  let (current, count) := acc
  if current.value.isNone then (p.2, count)
  else
    match compareVectorClocks current.vectorClock p.2.vectorClock with
    | "concurrent" => (mergeConflicts current p.2 now, count + 1)
    | "newer" => (p.2, count)
    | _ => (current, count)

/-- Embedding of `(c *Coordinator) resolveConflicts(responses)` (the Go map
iteration order becomes the response list order). -/
def resolveConflicts (responses : List (String × StoredValue)) (now : Nat) :
    StoredValue × Nat :=
  responses.foldl (resolveStep now) (emptyStored, 0)

/-- Embedding of the quorum/fallback logic of `(c *Coordinator) Get(key)`
after the responsible nodes have been determined.  Read repair and sloppy
bookkeeping are fire-and-forget and do not affect the returned value. -/
def Get (readQuorum : Int) (selfID : String) (store : Storage) (hs : HintsMap)
    (remote : String → StoredValue) (nodes : List String) (key : String)
    (now : Nat) : Except String GetResult :=
  let responses := gatherResponses selfID store hs remote nodes key
  if (responses.length : Int) < readQuorum then
    let localValue := localGet store hs key
    if localValue.value.isSome then Except.ok (formatResult localValue 0)
    else Except.error "insufficient replicas for read quorum"
  else
    let rc := resolveConflicts responses now
    Except.ok (formatResult rc.1 rc.2)

/-! ## Coordinator writes (backend/node.go: Put and helpers) -/

/-- Embedding of `replicateWrite`: the `ack` oracle stands for the outcome of
`writeToNode` (local put or remote put with retries); goroutine completion
order only permutes `successNodes`, which no caller depends on beyond
membership and count. -/
def replicateWrite (nodes : List String) (ack : String → Bool) : List String :=
  nodes.filter ack

/-- Embedding of `processSloppyReplacements`: for every
`original → replacement` pair whose replacement acknowledged the write, a
hint for the original node is stored locally. -/
def processSloppyReplacements (hs : HintsMap) (successNodes : List String)
    (replacements : List (String × String)) (key : String)
    (value : Option String) (vc : Clock) (now : Nat) : HintsMap :=
  replacements.foldl
    (fun acc pr =>
      if successNodes.contains pr.2 then storeHint acc pr.1 key value vc now
      else acc)
    hs

/-- Embedding of `(c *Coordinator) Put(key, value)` after the vector clock has
been incremented and the responsible nodes determined: fan out, count
successes, fail without side effects below the write quorum, otherwise store
hints for replaced nodes and succeed.  Returns the Go error and the updated
hints map. -/
def Put (writeQuorum : Int) (hs : HintsMap) (nodes : List String)
    (replacements : List (String × String)) (key : String)
    (value : Option String) (vc : Clock) (ack : String → Bool) (now : Nat) :
    Except String Unit × HintsMap :=
  let successNodes := replicateWrite nodes ack
  if (successNodes.length : Int) < writeQuorum then
    (Except.error "insufficient replicas for write quorum", hs)
  else
    (Except.ok (),
     processSloppyReplacements hs successNodes replacements key value vc now)

/-! ## Read repair (backend/node.go: performReadRepairs, repairNode) -/

/-- Embedding of `(c *Coordinator) performReadRepairs(nodes, key, latest)`:
the list of nodes to which `repairNode` is dispatched. -/
def performReadRepairs (selfID : String) (nodes : List String) : List String :=
  nodes.filter (fun nid => nid ≠ selfID)

/-- Body of the `PUT /internal/repair/<key>` request built by `repairNode`
(`conflicts` is attached only when the sibling list is non-empty). -/
structure RepairBody where
  value : Option String
  vectorClock : Clock
  timestamp : Nat
  conflicts : Option (List (Option String × Clock × Nat))
deriving Repr

/-- Embedding of the request body constructed in `repairNode`. -/
def repairBody (v : StoredValue) : RepairBody :=
  ⟨v.value, v.vectorClock, v.timestamp,
   if v.conflicts.length > 0 then
     some (v.conflicts.map (fun c => (c.value, c.vectorClock, c.timestamp)))
   else none⟩

/-- Response of `GET /internal/kv/{key}` (backend/main.go,
`InternalGetHandler`): the local value with clock and timestamp, plus the
sibling list when present. -/
structure InternalGetResponse where
  value : Option String
  vectorClock : Clock
  timestamp : Nat
  conflicts : Option (List (Option String × Clock))
deriving Repr

/-- Embedding of `InternalGetHandler`: serves `localGet` over HTTP. -/
def InternalGetHandler (store : Storage) (hs : HintsMap) (key : String) :
    InternalGetResponse :=
  let v := localGet store hs key
  ⟨v.value, v.vectorClock, v.timestamp,
   if v.conflicts.length > 0 then
     some (v.conflicts.map (fun c => (c.value, c.vectorClock)))
   else none⟩

/-! ## C3: write quorum error -/

/-- C3.  A coordinator `Put` returns the insufficient-replicas-for-write
error exactly when fewer acknowledgements than the write quorum were
collected, and succeeds as soon as the quorum is met. -/
theorem put_write_quorum (writeQuorum : Int) (hs : HintsMap)
    (nodes : List String) (replacements : List (String × String))
    (key : String) (value : Option String) (vc : Clock)
    (ack : String → Bool) (now : Nat) :
    ((Put writeQuorum hs nodes replacements key value vc ack now).1 =
        Except.error "insufficient replicas for write quorum" ↔
      ((replicateWrite nodes ack).length : Int) < writeQuorum) ∧
    (writeQuorum ≤ ((replicateWrite nodes ack).length : Int) →
      (Put writeQuorum hs nodes replacements key value vc ack now).1 =
        Except.ok ()) := by
  unfold Put
  by_cases h : ((replicateWrite nodes ack).length : Int) < writeQuorum <;>
    simp [h]

theorem put_write_quorum_witness :
    (Put 2 [] ["A", "B", "C"] [] "k" (some "v") [("A", 1)]
        (fun _ => true) 0).1 = Except.ok () :=
  (put_write_quorum 2 [] ["A", "B", "C"] [] "k" (some "v") [("A", 1)]
    (fun _ => true) 0).2 (by decide)

/-! ## C4: degraded read -/

/-- C4.  When fewer than `R` non-empty responses arrive, `Get` falls back to
the local value when one exists (degraded read, reported as success) and
returns the insufficient-replicas-for-read error otherwise. -/
theorem get_degraded_read (readQuorum : Int) (selfID : String)
    (store : Storage) (hs : HintsMap) (remote : String → StoredValue)
    (nodes : List String) (key : String) (now : Nat)
    (hq : ((gatherResponses selfID store hs remote nodes key).length : Int) <
      readQuorum) :
    ((localGet store hs key).value = none →
      Get readQuorum selfID store hs remote nodes key now =
        Except.error "insufficient replicas for read quorum") ∧
    ((localGet store hs key).value.isSome →
      Get readQuorum selfID store hs remote nodes key now =
        Except.ok (formatResult (localGet store hs key) 0)) := by
  constructor
  · intro hn
    unfold Get
    rw [if_pos hq]
    simp [hn]
  · intro hsome
    unfold Get
    rw [if_pos hq]
    simp [hsome]

theorem get_degraded_read_witness :
    Get 1 "A" [("k", ⟨some "v", [("A", 1)], [], 0⟩)] []
        (fun _ => emptyStored) [] "k" 3 =
      Except.ok (formatResult
        (localGet [("k", ⟨some "v", [("A", 1)], [], 0⟩)] [] "k") 0) :=
  (get_degraded_read 1 "A" [("k", ⟨some "v", [("A", 1)], [], 0⟩)] []
    (fun _ => emptyStored) [] "k" 3 (by decide)).2 (by decide)

/-! ## C5: read repair targets -/

/-- Counterexample to C5 as stated: with identical fresh copies on both
replicas, node B returned exactly the reconciled (freshest) value, yet
`performReadRepairs` still dispatches a repair write to B — the code repairs
every non-self replica unconditionally. -/
theorem read_repair_counterexample :
    (resolveConflicts [("A", ⟨some "v", [("B", 1)], [], 5⟩),
                       ("B", ⟨some "v", [("B", 1)], [], 5⟩)] 9).1 =
      ⟨some "v", [("B", 1)], [], 5⟩ ∧
    "B" ∈ performReadRepairs "A" ["A", "B"] := by
  refine ⟨rfl, ?_⟩
  simp [performReadRepairs]

/-- C5 (amended).  After a `Get`, the background read repair dispatches
`repairNode` to every replica of the preference list except the coordinator
itself, regardless of the version each returned, and the repair request
carries the reconciled value, its (merged) clock and the sibling list. -/
theorem read_repair_targets (selfID : String) (nodes : List String)
    (latest : StoredValue) :
    (∀ nid, nid ∈ performReadRepairs selfID nodes ↔
      nid ∈ nodes ∧ nid ≠ selfID) ∧
    (repairBody latest).value = latest.value ∧
    (repairBody latest).vectorClock = latest.vectorClock ∧
    (repairBody latest).timestamp = latest.timestamp ∧
    (repairBody latest).conflicts =
      (if latest.conflicts.length = 0 then none
       else some (latest.conflicts.map
         (fun c => (c.value, c.vectorClock, c.timestamp)))) := by
  refine ⟨fun nid => by simp [performReadRepairs], rfl, rfl, rfl, ?_⟩
  unfold repairBody
  cases latest.conflicts <;> simp

/-! ## C9: hint buffer bound and FIFO order -/

/-- C9.  `storeHint` keeps every target's buffer within `hintStorageLimit`
and in FIFO order: below the limit the new hint is appended at the tail; at
the limit the oldest (head) entry is evicted first; other targets' buffers
are untouched. -/
theorem storeHint_bounded_fifo (hs : HintsMap) (t k : String)
    (v : Option String) (vc : Clock) (now : Nat) :
    ((hintsGet hs t).length ≤ hintStorageLimit →
      (hintsGet (storeHint hs t k v vc now) t).length ≤ hintStorageLimit) ∧
    ((hintsGet hs t).length = hintStorageLimit →
      hintsGet (storeHint hs t k v vc now) t =
        (hintsGet hs t).drop 1 ++ [⟨k, v, vc, t, now, 0⟩]) ∧
    ((hintsGet hs t).length < hintStorageLimit →
      hintsGet (storeHint hs t k v vc now) t =
        hintsGet hs t ++ [⟨k, v, vc, t, now, 0⟩]) ∧
    (∀ t', t' ≠ t → hintsGet (storeHint hs t k v vc now) t' = hintsGet hs t') := by
  have hget : ∀ l, hintsGet (hintsSet hs t l) t = l := by
    intro l
    rw [hintsGet_hintsSet]
    simp
  have hother : ∀ l t', t' ≠ t → hintsGet (hintsSet hs t l) t' = hintsGet hs t' := by
    intro l t' ht'
    rw [hintsGet_hintsSet, if_neg ht']
  refine ⟨?_, ?_, ?_, ?_⟩
  · intro hle
    unfold storeHint
    rw [hget]
    by_cases hfull : (hintsGet hs t).length ≥ hintStorageLimit
    · rw [if_pos hfull]
      have : hintStorageLimit = 1000 := rfl
      simp [List.length_drop]
      omega
    · rw [if_neg hfull]
      simp
      omega
  · intro heq
    unfold storeHint
    rw [hget, if_pos (le_of_eq heq.symm)]
  · intro hlt
    unfold storeHint
    rw [hget, if_neg (not_le.mpr hlt)]
  · intro t' ht'
    unfold storeHint
    exact hother _ t' ht'

theorem storeHint_bounded_fifo_witness :
    hintsGet (storeHint [] "B" "k" (some "v") [("A", 1)] 3) "B" =
      hintsGet [] "B" ++ [⟨"k", some "v", [("A", 1)], "B", 3, 0⟩] :=
  (storeHint_bounded_fifo [] "B" "k" (some "v") [("A", 1)] 3).2.2.1 (by decide)

/-! ## C10: local reads fall back to the hint buffer -/

theorem hintScan_finds {hs : HintsMap} {key : String}
    (hexists : ∃ t hl h, (t, hl) ∈ hs ∧ h ∈ hl ∧ HintedWrite.key h = key) :
    ∃ h : HintedWrite, hintScan hs key = some h ∧ HintedWrite.key h = key ∧
      ∃ t hl, (t, hl) ∈ hs ∧ h ∈ hl := by
  induction hs with
  | nil =>
    obtain ⟨t, hl, h, hmem, _, _⟩ := hexists
    simp at hmem
  | cons p rest ih =>
    obtain ⟨t0, hl0⟩ := p
    cases hfind : hl0.find? (fun h => h.key = key) with
    | some h =>
      refine ⟨h, ?_, ?_, t0, hl0, List.mem_cons_self _ _, List.mem_of_find?_eq_some hfind⟩
      · simp [hintScan, hfind]
      · have := List.find?_some hfind
        simpa using this
    | none =>
      have hnone : ∀ h ∈ hl0, HintedWrite.key h ≠ key := by
        intro h hmem he
        have := List.find?_eq_none.mp hfind h hmem
        simp [he] at this
      obtain ⟨t, hl, h, hmem, hh, hk⟩ := hexists
      rcases List.mem_cons.mp hmem with hc | hc
      · exfalso
        injection hc with h1 h2
        subst h2
        exact hnone h hh hk
      · obtain ⟨h', hscan, hk', t', hl', hmem', hh'⟩ :=
          ih ⟨t, hl, h, hc, hh, hk⟩
        refine ⟨h', ?_, hk', t', hl', List.mem_cons_of_mem _ hmem', hh'⟩
        simp [hintScan, hfind, hscan]

/-- C10.  For a key absent from local storage but carried by some buffered
hint (held for any target), `localGet` returns the hinted value and clock
instead of an empty result, and `GET /internal/kv/{key}` therefore serves
that data too. -/
theorem localGet_hint_fallback (store : Storage) (hs : HintsMap) (key : String)
    (habs : storageGet store key = none)
    (hexists : ∃ t hl h, (t, hl) ∈ hs ∧ h ∈ hl ∧ HintedWrite.key h = key) :
    ∃ h : HintedWrite, HintedWrite.key h = key ∧
      (∃ t hl, (t, hl) ∈ hs ∧ h ∈ hl) ∧
      localGet store hs key = ⟨h.value, h.vectorClock, [], h.timestamp⟩ ∧
      InternalGetHandler store hs key =
        ⟨h.value, h.vectorClock, h.timestamp, none⟩ := by
  obtain ⟨h, hscan, hk, t, hl, hmem, hh⟩ := hintScan_finds hexists
  have hlocal : localGet store hs key = ⟨h.value, h.vectorClock, [], h.timestamp⟩ := by
    unfold localGet
    rw [habs]
    unfold hintFallback
    rw [hscan]
  refine ⟨h, hk, ⟨t, hl, hmem, hh⟩, hlocal, ?_⟩
  unfold InternalGetHandler
  rw [hlocal]
  simp

theorem localGet_hint_fallback_witness :
    ∃ h : HintedWrite, HintedWrite.key h = "k" ∧
      (∃ t hl, (t, hl) ∈ ([("C", [⟨"k", some "v", [("A", 1)], "C", 2, 1⟩])] : HintsMap) ∧
        h ∈ hl) ∧
      localGet [] [("C", [⟨"k", some "v", [("A", 1)], "C", 2, 1⟩])] "k" =
        ⟨h.value, h.vectorClock, [], h.timestamp⟩ ∧
      InternalGetHandler [] [("C", [⟨"k", some "v", [("A", 1)], "C", 2, 1⟩])] "k" =
        ⟨h.value, h.vectorClock, h.timestamp, none⟩ :=
  localGet_hint_fallback [] [("C", [⟨"k", some "v", [("A", 1)], "C", 2, 1⟩])] "k"
    rfl
    ⟨"C", [⟨"k", some "v", [("A", 1)], "C", 2, 1⟩],
     ⟨"k", some "v", [("A", 1)], "C", 2, 1⟩,
     List.mem_cons_self _ _, List.mem_cons_self _ _, rfl⟩

/-! ## C8: configuration validation (backend/config.go, backend/node.go) -/

/-- The configuration fields `ValidateConfig` and `NewCoordinator` inspect.
`gossipIntervalNs` is the `time.Duration` in nanoseconds
(`gossip_interval_ms * 10^6`). -/
structure Config where
  readQuorum : Int
  writeQuorum : Int
  replicationFactor : Int
  gossipIntervalNs : Int
deriving Repr

/-- Embedding of `ValidateConfig(cfg)` (config.go): note it does not check
the replication factor for positivity. -/
def ValidateConfig (cfg : Config) : Except String Unit :=
  if cfg.readQuorum ≤ 0 ∨ cfg.writeQuorum ≤ 0 then
    Except.error "quorums must be positive integers"
  else if cfg.readQuorum + cfg.writeQuorum ≤ cfg.replicationFactor then
    Except.error "unsafe quorum"
  else if cfg.gossipIntervalNs < 100000000 then
    Except.error "gossip interval too short"
  else
    Except.ok ()

/-- Embedding of the `log.Fatal` guards of `NewCoordinator(nodeID, ring,
replication, readQ, writeQ)` (node.go): `false` means the process dies. -/
def newCoordinatorAccepts (replication readQ writeQ : Int) : Bool :=
  if readQ ≤ 0 ∨ writeQ ≤ 0 ∨ replication ≤ 0 then false
  else if readQ + writeQ ≤ replication then false
  else true

/-- The full startup validation path: `LoadConfig` runs `ValidateConfig`,
then `main` constructs the coordinator through `NewCoordinator`; a violation
at either gate is fatal at startup. -/
def startupAccepts (cfg : Config) : Prop :=
  ValidateConfig cfg = Except.ok () ∧
  newCoordinatorAccepts cfg.replicationFactor cfg.readQuorum cfg.writeQuorum = true

/-- C8.  Startup validation accepts a configuration iff `R > 0`, `W > 0`,
`N > 0`, `R + W > N` and the gossip interval is at least 100ms; any
violation is rejected (fatal at startup).  `ValidateConfig` alone omits the
`N > 0` check, which the `NewCoordinator` guard (also cited by the claim)
supplies. -/
theorem config_validation_iff (cfg : Config) :
    startupAccepts cfg ↔
      (0 < cfg.readQuorum ∧ 0 < cfg.writeQuorum ∧ 0 < cfg.replicationFactor ∧
       cfg.replicationFactor < cfg.readQuorum + cfg.writeQuorum ∧
       100000000 ≤ cfg.gossipIntervalNs) := by
  have hv : ValidateConfig cfg = Except.ok () ↔
      (¬ (cfg.readQuorum ≤ 0 ∨ cfg.writeQuorum ≤ 0) ∧
       ¬ (cfg.readQuorum + cfg.writeQuorum ≤ cfg.replicationFactor) ∧
       ¬ (cfg.gossipIntervalNs < 100000000)) := by
    unfold ValidateConfig
    split_ifs with ha hb hc <;> simp [*]
  have hn : newCoordinatorAccepts cfg.replicationFactor cfg.readQuorum
        cfg.writeQuorum = true ↔
      (¬ (cfg.readQuorum ≤ 0 ∨ cfg.writeQuorum ≤ 0 ∨
          cfg.replicationFactor ≤ 0) ∧
       ¬ (cfg.readQuorum + cfg.writeQuorum ≤ cfg.replicationFactor)) := by
    unfold newCoordinatorAccepts
    split_ifs with ha hb <;> simp [*]
  unfold startupAccepts
  rw [hv, hn]
  omega

/-! ## SHA-256 (Go crypto/sha256, as consumed by hashKey)

The ring hashes keys with `sha256.Sum256` and keeps the first 8 bytes as a
big-endian `uint64`.  The standard algorithm is embedded over `Nat` with
explicit 32-bit reductions. -/

/-- Reduce to a 32-bit word. -/
def w32 (x : Nat) : Nat := x % 4294967296

/-- 32-bit right rotation. -/
def rotr32 (x n : Nat) : Nat := w32 ((x >>> n) ||| (x <<< (32 - n)))

/-- 32-bit bitwise complement. -/
def notb32 (x : Nat) : Nat := x ^^^ 4294967295

/-- SHA-256 big sigma-0. -/
def bsig0 (x : Nat) : Nat := (rotr32 x 2) ^^^ (rotr32 x 13) ^^^ (rotr32 x 22)

/-- SHA-256 big sigma-1. -/
def bsig1 (x : Nat) : Nat := (rotr32 x 6) ^^^ (rotr32 x 11) ^^^ (rotr32 x 25)

/-- SHA-256 small sigma-0. -/
def ssig0 (x : Nat) : Nat := (rotr32 x 7) ^^^ (rotr32 x 18) ^^^ (x >>> 3)

/-- SHA-256 small sigma-1. -/
def ssig1 (x : Nat) : Nat := (rotr32 x 17) ^^^ (rotr32 x 19) ^^^ (x >>> 10)

/-- SHA-256 choice function. -/
def chFn (x y z : Nat) : Nat := (x &&& y) ^^^ (notb32 x &&& z)

/-- SHA-256 majority function. -/
def majFn (x y z : Nat) : Nat := (x &&& y) ^^^ (x &&& z) ^^^ (y &&& z)

/-- The 64 SHA-256 round constants (decimal). -/
def sha256K : List Nat :=
  [1116352408, 1899447441, 3049323471, 3921009573, 961987163,
   1508970993, 2453635748, 2870763221, 3624381080, 310598401,
   607225278, 1426881987, 1925078388, 2162078206, 2614888103,
   3248222580, 3835390401, 4022224774, 264347078, 604807628,
   770255983, 1249150122, 1555081692, 1996064986, 2554220882,
   2821834349, 2952996808, 3210313671, 3336571891, 3584528711,
   113926993, 338241895, 666307205, 773529912, 1294757372,
   1396182291, 1695183700, 1986661051, 2177026350, 2456956037,
   2730485921, 2820302411, 3259730800, 3345764771, 3516065817,
   3600352804, 4094571909, 275423344, 430227734, 506948616,
   659060556, 883997877, 958139571, 1322822218, 1537002063,
   1747873779, 1955562222, 2024104815, 2227730452, 2361852424,
   2428436474, 2756734187, 3204031479, 3329325298]

/-- The eight 32-bit words of a SHA-256 state. -/
structure Hash8 where
  a : Nat
  b : Nat
  c : Nat
  d : Nat
  e : Nat
  f : Nat
  g : Nat
  h : Nat
deriving Repr

/-- SHA-256 initial state (decimal). -/
def initialHash : Hash8 :=
  ⟨1779033703, 3144134277, 1013904242, 2773480762,
   1359893119, 2600822924, 528734635, 1541459225⟩

/-- One message-schedule extension step. -/
def scheduleStep (w : List Nat) : List Nat :=
  let t := w.length
  w ++ [w32 (ssig1 (w.getD (t - 2) 0) + w.getD (t - 7) 0 +
             ssig0 (w.getD (t - 15) 0) + w.getD (t - 16) 0)]

/-- Extend a 16-word block to the 64-word message schedule. -/
def schedule (w : List Nat) : List Nat := scheduleStep^[48] w

/-- One SHA-256 compression round. -/
def sha256Round (st : Hash8) (ki wi : Nat) : Hash8 :=
  let t1 := w32 (st.h + bsig1 st.e + chFn st.e st.f st.g + ki + wi)
  let t2 := w32 (bsig0 st.a + majFn st.a st.b st.c)
  ⟨w32 (t1 + t2), st.a, st.b, st.c, w32 (st.d + t1), st.e, st.f, st.g⟩

/-- Compress one 16-word block into the running state. -/
def compressBlock (h0 : Hash8) (block : List Nat) : Hash8 :=
  let w := schedule block
  let st := (sha256K.zip w).foldl (fun s p => sha256Round s p.1 p.2) h0
  ⟨w32 (h0.a + st.a), w32 (h0.b + st.b), w32 (h0.c + st.c), w32 (h0.d + st.d),
   w32 (h0.e + st.e), w32 (h0.f + st.f), w32 (h0.g + st.g), w32 (h0.h + st.h)⟩

/-- Pack big-endian bytes into 32-bit words. -/
def bytesToWords : List Nat → List Nat
  | b0 :: b1 :: b2 :: b3 :: rest =>
      ((b0 <<< 24) ||| (b1 <<< 16) ||| (b2 <<< 8) ||| b3) :: bytesToWords rest
  | _ => []

/-- SHA-256 padding: a 0x80 byte, zeros to 56 mod 64, and the 64-bit
big-endian bit length. -/
def padMessage (msg : List Nat) : List Nat :=
  let len := msg.length
  let padZeros := (64 - (len + 9) % 64) % 64
  let bitLen := len * 8
  msg ++ [0x80] ++ List.replicate padZeros 0 ++
    (List.range 8).map (fun i => (bitLen >>> (56 - 8 * i)) % 256)

/-- Split the padded word stream into 16-word blocks. -/
def blocks16 (w : List Nat) : List (List Nat) :=
  match w with
  | [] => []
  | x :: rest => ((x :: rest).take 16) :: blocks16 ((x :: rest).drop 16)
termination_by w.length
decreasing_by simp [List.length_drop]; omega

/-- SHA-256 state after digesting a byte message. -/
def sha256Words (msg : List Nat) : Hash8 :=
  (blocks16 (bytesToWords (padMessage msg))).foldl compressBlock initialHash

/-- Split a 32-bit word into big-endian bytes. -/
def word32Bytes (w : Nat) : List Nat :=
  [(w >>> 24) % 256, (w >>> 16) % 256, (w >>> 8) % 256, w % 256]

/-- The 32-byte SHA-256 digest of a byte message (Go `sha256.Sum256`). -/
def sha256Bytes (msg : List Nat) : List Nat :=
  let h := sha256Words msg
  ([h.a, h.b, h.c, h.d, h.e, h.f, h.g, h.h].map word32Bytes).flatten

/-- UTF-8 encoding of one character (Go `[]byte(string)` semantics). -/
def charUTF8 (c : Char) : List Nat :=
  let n := c.toNat
  if n < 0x80 then [n]
  else if n < 0x800 then
    [0xC0 ||| (n >>> 6), 0x80 ||| (n &&& 0x3F)]
  else if n < 0x10000 then
    [0xE0 ||| (n >>> 12), 0x80 ||| ((n >>> 6) &&& 0x3F), 0x80 ||| (n &&& 0x3F)]
  else
    [0xF0 ||| (n >>> 18), 0x80 ||| ((n >>> 12) &&& 0x3F),
     0x80 ||| ((n >>> 6) &&& 0x3F), 0x80 ||| (n &&& 0x3F)]

/-- The UTF-8 bytes of a Go string. -/
def stringBytes (s : String) : List Nat := (s.data.map charUTF8).flatten

/-- Embedding of `hashKey(key)`: the first 8 bytes of the SHA-256 digest as
a big-endian unsigned 64-bit integer
(`uint64(h[0])<<56 | ... | uint64(h[7])`). -/
def hashKey (key : String) : Nat :=
  let h := sha256Bytes (stringBytes key)
  (h.getD 0 0) <<< 56 ||| (h.getD 1 0) <<< 48 ||| (h.getD 2 0) <<< 40 |||
  (h.getD 3 0) <<< 32 ||| (h.getD 4 0) <<< 24 ||| (h.getD 5 0) <<< 16 |||
  (h.getD 6 0) <<< 8 ||| (h.getD 7 0)

/-! ## Consistent hash ring (ring source file) -/

/-- Go constant `virtualNodeCount`. -/
def virtualNodeCount : Nat := 256

/-- Embedding of `ConsistentHashRing`: ascending virtual-token array, the
token-to-node map, and the node set. -/
structure ConsistentHashRing where
  virtualNodes : List Nat
  nodeMap : List (Nat × String)
  nodes : List String
deriving Repr

/-- Embedding of `NewConsistentHashRing()`. -/
def NewConsistentHashRing : ConsistentHashRing := ⟨[], [], []⟩

/-- Go map read `c.nodeMap[h]` with presence flag. -/
def nodeMapFind (m : List (Nat × String)) (h : Nat) : Option String :=
  match m with
  | [] => none
  | (t, id) :: rest => if t = h then some id else nodeMapFind rest h

/-- Go map write `c.nodeMap[h] = id`. -/
def nodeMapInsert (m : List (Nat × String)) (h : Nat) (id : String) :
    List (Nat × String) :=
  match m with
  | [] => [(h, id)]
  | (t, id') :: rest =>
      if t = h then (t, id) :: rest else (t, id') :: nodeMapInsert rest h id

/-- Go map read with zero-value default (`c.nodeMap[token]` yields `""` for
a missing token). -/
def nodeMapLookup (m : List (Nat × String)) (h : Nat) : String :=
  (nodeMapFind m h).getD ""

/-- The hash of the virtual key `"<nodeID>-vn-<i>"`. -/
def tokenHash (nodeID : String) (i : Nat) : Nat :=
  hashKey (nodeID ++ "-vn-" ++ toString i)

/-- Go set insert `c.nodes[nodeID] = true`. -/
def nodesInsert (ns : List String) (id : String) : List String :=
  if id ∈ ns then ns else ns ++ [id]

/-- Embedding of `AddNode(nodeID)`: record the node, append its 256
virtual-token hashes and their map entries, and resort ascending
(`sort.Slice`; over `Nat` the ascending reordering of a multiset is unique,
so insertion sort is that sort). -/
def AddNode (c : ConsistentHashRing) (nodeID : String) : ConsistentHashRing :=
  let hashes := (List.range virtualNodeCount).map (tokenHash nodeID)
  { nodes := nodesInsert c.nodes nodeID
    virtualNodes := List.insertionSort (· ≤ ·) (c.virtualNodes ++ hashes)
    nodeMap := hashes.foldl (fun m h => nodeMapInsert m h nodeID) c.nodeMap }

/-- Embedding of Go `sort.Search`'s binary-search loop (`i, j := 0, n;
for i < j { h := (i+j)/2; if !f(h) { i = h+1 } else { j = h } }`). -/
def sortSearchAux (f : Nat → Bool) (i j : Nat) : Nat :=
  if h : i < j then
    if !(f ((i + j) / 2)) then sortSearchAux f ((i + j) / 2 + 1) j
    else sortSearchAux f i ((i + j) / 2)
  else i
termination_by j - i
decreasing_by
  · omega
  · omega

/-- Embedding of `sort.Search(n, f)`. -/
def sortSearch (n : Nat) (f : Nat → Bool) : Nat := sortSearchAux f 0 n

/-- Embedding of `GetNode(key)`: binary-search the least token at least
`hashKey key`, wrapping to index 0 when there is none; empty rings answer
the zero string. -/
def GetNode (c : ConsistentHashRing) (key : String) : String :=
  if c.virtualNodes.length = 0 then ""
  else
    let h := hashKey key
    let idx := sortSearch c.virtualNodes.length
      (fun i => decide (h ≤ c.virtualNodes.getD i 0))
    let idx' := if idx = c.virtualNodes.length then 0 else idx
    nodeMapLookup c.nodeMap (c.virtualNodes.getD idx' 0)

/-! ## Binary search correctness -/

theorem sortSearchAux_spec (f : Nat → Bool) (n : Nat)
    (hmono : ∀ k l, k ≤ l → l < n → f k = true → f l = true) :
    ∀ d i j, j - i ≤ d → i ≤ j → j ≤ n →
      (∀ k, k < i → f k = false) →
      (∀ k, j ≤ k → k < n → f k = true) →
      i ≤ sortSearchAux f i j ∧ sortSearchAux f i j ≤ j ∧
      (∀ k, k < sortSearchAux f i j → f k = false) ∧
      (∀ k, sortSearchAux f i j ≤ k → k < n → f k = true) := by
  intro d
  induction d with
  | zero =>
    intro i j hd hij hjn hlow hhigh
    have hji : i = j := by omega
    subst hji
    rw [sortSearchAux]
    rw [dif_neg (lt_irrefl i)]
    exact ⟨le_refl _, le_refl _, hlow, hhigh⟩
  | succ d ih =>
    intro i j hd hij hjn hlow hhigh
    rw [sortSearchAux]
    by_cases hlt : i < j
    · rw [dif_pos hlt]
      have hm1 : i ≤ (i + j) / 2 := by omega
      have hm2 : (i + j) / 2 < j := by omega
      cases hfm : f ((i + j) / 2) with
      | false =>
        simp only [Bool.not_false, if_true]
        have hlow' : ∀ k, k < (i + j) / 2 + 1 → f k = false := by
          intro k hk
          cases hfk : f k with
          | false => rfl
          | true =>
            exfalso
            have := hmono k ((i + j) / 2) (by omega) (by omega) hfk
            rw [hfm] at this
            cases this
        obtain ⟨h1, h2, h3, h4⟩ :=
          ih ((i + j) / 2 + 1) j (by omega) (by omega) hjn hlow' hhigh
        exact ⟨by omega, h2, h3, h4⟩
      | true =>
        simp only [Bool.not_true, Bool.false_eq_true, if_false]
        have hhigh' : ∀ k, (i + j) / 2 ≤ k → k < n → f k = true := by
          intro k hk hkn
          exact hmono ((i + j) / 2) k hk hkn hfm
        obtain ⟨h1, h2, h3, h4⟩ :=
          ih i ((i + j) / 2) (by omega) (by omega) (by omega) hlow hhigh'
        exact ⟨h1, by omega, h3, h4⟩
    · rw [dif_neg hlt]
      exact ⟨le_refl _, by omega, hlow, fun k hk hkn => hhigh k (by omega) hkn⟩

theorem sortSearch_spec (n : Nat) (f : Nat → Bool)
    (hmono : ∀ k l, k ≤ l → l < n → f k = true → f l = true) :
    sortSearch n f ≤ n ∧
    (∀ k, k < sortSearch n f → f k = false) ∧
    (∀ k, sortSearch n f ≤ k → k < n → f k = true) := by
  obtain ⟨h1, h2, h3, h4⟩ :=
    sortSearchAux_spec f n hmono n 0 n (by omega) (by omega) (le_refl n)
      (fun k hk => absurd hk (Nat.not_lt_zero k))
      (fun k hk hkn => absurd hkn (by omega))
  exact ⟨h2, h3, h4⟩

/-! ## GetNode characterisation -/

theorem sorted_getD_le {l : List Nat} (hs : List.Sorted (· ≤ ·) l)
    {i j : Nat} (hij : i ≤ j) (hj : j < l.length) :
    l.getD i 0 ≤ l.getD j 0 := by
  have hi : i < l.length := lt_of_le_of_lt hij hj
  rw [List.getD_eq_getElem l 0 hi, List.getD_eq_getElem l 0 hj]
  rcases lt_or_eq_of_le hij with hlt | heq
  · have := List.pairwise_iff_get.mp hs ⟨i, hi⟩ ⟨j, hj⟩ hlt
    simpa using this
  · subst heq
    exact le_refl _

theorem getD_mem {l : List Nat} {i : Nat} (hi : i < l.length) :
    l.getD i 0 ∈ l := by
  rw [List.getD_eq_getElem l 0 hi]
  exact List.getElem_mem hi

/-- The least-token characterisation of `GetNode` on a sorted non-empty
ring: the answer is the node owning the least token no smaller than the
key's hash, or the node owning the overall least token when every token is
below the hash (wrap-around). -/
theorem getNode_char (c : ConsistentHashRing) (key : String)
    (hsorted : List.Sorted (· ≤ ·) c.virtualNodes)
    (hne : c.virtualNodes ≠ []) :
    ∃ t, t ∈ c.virtualNodes ∧ GetNode c key = nodeMapLookup c.nodeMap t ∧
      ((hashKey key ≤ t ∧ ∀ u ∈ c.virtualNodes, hashKey key ≤ u → t ≤ u) ∨
       ((∀ u ∈ c.virtualNodes, u < hashKey key) ∧
        ∀ u ∈ c.virtualNodes, t ≤ u)) := by
  set l := c.virtualNodes with hl
  set h := hashKey key with hh
  set f := fun i => decide (h ≤ l.getD i 0) with hf
  have hlen : 0 < l.length := List.length_pos.mpr hne
  have hmono : ∀ k m, k ≤ m → m < l.length → f k = true → f m = true := by
    intro k m hkm hm hfk
    have h1 : h ≤ l.getD k 0 := of_decide_eq_true hfk
    have h2 : l.getD k 0 ≤ l.getD m 0 := sorted_getD_le hsorted hkm hm
    exact decide_eq_true (le_trans h1 h2)
  obtain ⟨hr1, hr2, hr3⟩ := sortSearch_spec l.length f hmono
  set r := sortSearch l.length f with hr
  have hget : GetNode c key =
      nodeMapLookup c.nodeMap (l.getD (if r = l.length then 0 else r) 0) := by
    unfold GetNode
    rw [← hl]
    rw [if_neg (show ¬ (l.length = 0) by omega)]
  by_cases hcase : r = l.length
  · -- every token is below the hash: wrap to the first (least) token
    refine ⟨l.getD 0 0, getD_mem hlen, ?_, Or.inr ⟨?_, ?_⟩⟩
    · rw [hget, if_pos hcase]
    · intro u hu
      obtain ⟨m, hm, hum⟩ := List.mem_iff_getElem.mp hu
      have hfm : f m = false := hr2 m (by omega)
      have : ¬ (h ≤ l.getD m 0) := of_decide_eq_false hfm
      rw [List.getD_eq_getElem l 0 hm] at this
      omega
    · intro u hu
      obtain ⟨m, hm, hum⟩ := List.mem_iff_getElem.mp hu
      have := sorted_getD_le hsorted (Nat.zero_le m) hm
      rw [List.getD_eq_getElem l 0 hm] at this
      omega
  · -- r points at the least token ≥ h
    have hrlen : r < l.length := lt_of_le_of_ne hr1 hcase
    refine ⟨l.getD r 0, getD_mem hrlen, ?_, Or.inl ⟨?_, ?_⟩⟩
    · rw [hget, if_neg hcase]
    · exact of_decide_eq_true (hr3 r (le_refl r) hrlen)
    · intro u hu hle
      obtain ⟨m, hm, hum⟩ := List.mem_iff_getElem.mp hu
      by_cases hmr : m < r
      · have hfm : f m = false := hr2 m hmr
        have : ¬ (h ≤ l.getD m 0) := of_decide_eq_false hfm
        rw [List.getD_eq_getElem l 0 hm] at this
        omega
      · have := sorted_getD_le hsorted (le_of_not_lt hmr) hm
        rw [List.getD_eq_getElem l 0 hm] at this
        omega

/-! ## C6: GetNode totality and determinism -/

/-- C6.  On any ring with at least one node (hence a sorted, non-empty token
array), `GetNode` is total: it answers with the owner of the least
virtual-node token at least `hashKey key` (the first 8 bytes of the SHA-256
digest, big-endian), wrapping to the overall least token when every token is
below the hash; and it is deterministic: it depends only on the ring's token
array and token-to-node map, so the same ring state and key always yield the
same node. -/
theorem getNode_total_deterministic (c c' : ConsistentHashRing) (key : String)
    (hsorted : List.Sorted (· ≤ ·) c.virtualNodes)
    (hne : c.virtualNodes ≠ []) :
    (∃ t, t ∈ c.virtualNodes ∧ GetNode c key = nodeMapLookup c.nodeMap t ∧
      ((hashKey key ≤ t ∧ ∀ u ∈ c.virtualNodes, hashKey key ≤ u → t ≤ u) ∨
       ((∀ u ∈ c.virtualNodes, u < hashKey key) ∧
        ∀ u ∈ c.virtualNodes, t ≤ u))) ∧
    (c'.virtualNodes = c.virtualNodes → c'.nodeMap = c.nodeMap →
      GetNode c' key = GetNode c key) :=
  ⟨getNode_char c key hsorted hne,
   fun h1 h2 => by unfold GetNode; rw [h1, h2]⟩

theorem getNode_total_deterministic_witness :
    (∃ t : Nat, t ∈ ([5] : List Nat) ∧
      GetNode ⟨[5], [(5, "A")], ["A"]⟩ "k" = nodeMapLookup [(5, "A")] t ∧
      ((hashKey "k" ≤ t ∧ ∀ u ∈ ([5] : List Nat), hashKey "k" ≤ u → t ≤ u) ∨
       ((∀ u ∈ ([5] : List Nat), u < hashKey "k") ∧
        ∀ u ∈ ([5] : List Nat), t ≤ u))) ∧
    (([5] : List Nat) = [5] → ([(5, "A")] : List (Nat × String)) = [(5, "A")] →
      GetNode ⟨[5], [(5, "A")], ["A"]⟩ "k" = GetNode ⟨[5], [(5, "A")], ["A"]⟩ "k") :=
  getNode_total_deterministic ⟨[5], [(5, "A")], ["A"]⟩ ⟨[5], [(5, "A")], ["A"]⟩
    "k" (List.sorted_singleton 5) (by simp)

/-! ## C7: AddNode on an already-present node -/

theorem nodeMapFind_nodeMapInsert (m : List (Nat × String)) (h : Nat)
    (id : String) (x : Nat) :
    nodeMapFind (nodeMapInsert m h id) x =
      if x = h then some id else nodeMapFind m x := by
  induction m with
  | nil =>
    by_cases hx : x = h
    · subst hx; simp [nodeMapInsert, nodeMapFind]
    · simp [nodeMapInsert, nodeMapFind, hx, Ne.symm hx]
  | cons p rest ih =>
    obtain ⟨t, id'⟩ := p
    by_cases ht : t = h
    · subst ht
      by_cases hx : x = t
      · subst hx; simp [nodeMapInsert, nodeMapFind]
      · simp [nodeMapInsert, nodeMapFind, hx, Ne.symm hx]
    · by_cases hx : x = t
      · subst hx
        simp [nodeMapInsert, nodeMapFind, ht, Ne.symm ht]
      · simp [nodeMapInsert, nodeMapFind, ht, hx, Ne.symm hx, ih]

theorem nodeMapFind_foldl_preserved (hs : List Nat) (id : String) :
    ∀ m, (∀ h ∈ hs, nodeMapFind m h = some id) →
      ∀ x, nodeMapFind (hs.foldl (fun m h => nodeMapInsert m h id) m) x =
        nodeMapFind m x := by
  induction hs with
  | nil => intro m _ x; rfl
  | cons h rest ih =>
    intro m hall x
    rw [List.foldl_cons]
    have hstep : ∀ y, nodeMapFind (nodeMapInsert m h id) y = nodeMapFind m y := by
      intro y
      rw [nodeMapFind_nodeMapInsert]
      by_cases hy : y = h
      · subst hy
        rw [if_pos rfl, hall y (List.mem_cons_self _ _)]
      · rw [if_neg hy]
    have hall' : ∀ h' ∈ rest, nodeMapFind (nodeMapInsert m h id) h' = some id :=
      fun h' hm => (hstep h').trans (hall h' (List.mem_cons_of_mem _ hm))
    rw [ih _ hall' x, hstep x]

theorem nodeMapFind_foldl_insert (hs : List Nat) (id : String) :
    ∀ m x, nodeMapFind (hs.foldl (fun m h => nodeMapInsert m h id) m) x =
      if x ∈ hs then some id else nodeMapFind m x := by
  induction hs with
  | nil => intro m x; simp
  | cons h rest ih =>
    intro m x
    rw [List.foldl_cons, ih]
    by_cases hx : x ∈ rest
    · rw [if_pos hx, if_pos (List.mem_cons_of_mem _ hx)]
    · rw [if_neg hx, nodeMapFind_nodeMapInsert]
      by_cases hxh : x = h
      · subst hxh
        rw [if_pos rfl, if_pos (List.mem_cons_self _ _)]
      · rw [if_neg hxh, if_neg (by simp [List.mem_cons, hxh, hx])]

theorem addNode_sorted (c : ConsistentHashRing) (id : String) :
    List.Sorted (· ≤ ·) (AddNode c id).virtualNodes :=
  List.sorted_insertionSort _ _

theorem addNode_length (c : ConsistentHashRing) (id : String) :
    (AddNode c id).virtualNodes.length =
      c.virtualNodes.length + virtualNodeCount := by
  show (List.insertionSort _ _).length = _
  rw [(List.perm_insertionSort _ _).length_eq]
  simp

theorem addNode_mem_iff (c : ConsistentHashRing) (id : String) (t : Nat) :
    t ∈ (AddNode c id).virtualNodes ↔
      t ∈ c.virtualNodes ∨
      t ∈ (List.range virtualNodeCount).map (tokenHash id) := by
  show t ∈ List.insertionSort _ _ ↔ _
  rw [(List.perm_insertionSort _ _).mem_iff, List.mem_append]

/-- Two sorted rings with the same token set and pointwise-equal token maps
resolve every key identically: `GetNode` only consumes the least matching
token, which is determined by the token set. -/
theorem getNode_congr (c c' : ConsistentHashRing)
    (hs : List.Sorted (· ≤ ·) c.virtualNodes)
    (hs' : List.Sorted (· ≤ ·) c'.virtualNodes)
    (hmemiff : ∀ t, t ∈ c'.virtualNodes ↔ t ∈ c.virtualNodes)
    (hmap : ∀ h, nodeMapFind c'.nodeMap h = nodeMapFind c.nodeMap h)
    (hne : c.virtualNodes ≠ []) (key : String) :
    GetNode c' key = GetNode c key := by
  have hne' : c'.virtualNodes ≠ [] := by
    obtain ⟨x, hx⟩ := List.exists_mem_of_ne_nil c.virtualNodes hne
    intro h0
    have hx' := (hmemiff x).mpr hx
    rw [h0] at hx'
    simp at hx'
  obtain ⟨t, htmem, hteq, htc⟩ := getNode_char c key hs hne
  obtain ⟨t', ht'mem, ht'eq, ht'c⟩ := getNode_char c' key hs' hne'
  have htt : t' = t := by
    rcases htc with ⟨hge, hmin⟩ | ⟨hall, hmin⟩
    · rcases ht'c with ⟨hge', hmin'⟩ | ⟨hall', hmin'⟩
      · have h1 : t ≤ t' := hmin t' ((hmemiff t').mp ht'mem) hge'
        have h2 : t' ≤ t := hmin' t ((hmemiff t).mpr htmem) hge
        omega
      · exact absurd hge (not_le.mpr (hall' t ((hmemiff t).mpr htmem)))
    · rcases ht'c with ⟨hge', hmin'⟩ | ⟨hall', hmin'⟩
      · exact absurd hge' (not_le.mpr (hall t' ((hmemiff t').mp ht'mem)))
      · have h1 : t ≤ t' := hmin t' ((hmemiff t').mp ht'mem)
        have h2 : t' ≤ t := hmin' t ((hmemiff t).mpr htmem)
        omega
  rw [hteq, ht'eq, htt]
  unfold nodeMapLookup
  rw [hmap t]

/-- Counterexample to C7 as stated: re-adding a present node duplicates its
256 tokens in the token array, so the virtual-node token collection is not
left unchanged. -/
theorem addNode_not_idempotent :
    (AddNode (AddNode NewConsistentHashRing "A") "A").virtualNodes ≠
      (AddNode NewConsistentHashRing "A").virtualNodes := by
  intro he
  have h1 := addNode_length (AddNode NewConsistentHashRing "A") "A"
  rw [he] at h1
  have hv : virtualNodeCount = 256 := rfl
  rw [hv] at h1
  omega

/-- C7 (amended).  Re-adding a node that is already a member (its token
hashes present and mapped to it) preserves every observable lookup: the node
set, the token-to-node map (pointwise), the token membership set, and every
`GetNode` result are unchanged — but the token array itself grows by 256
duplicate entries, so the token collection is not literally identical. -/
theorem addNode_idempotent_amended (c : ConsistentHashRing) (id : String)
    (hmem : id ∈ c.nodes)
    (hsorted : List.Sorted (· ≤ ·) c.virtualNodes)
    (htok : ∀ i, i < virtualNodeCount → tokenHash id i ∈ c.virtualNodes)
    (hmap : ∀ i, i < virtualNodeCount →
      nodeMapFind c.nodeMap (tokenHash id i) = some id) :
    (AddNode c id).nodes = c.nodes ∧
    (∀ h, nodeMapFind (AddNode c id).nodeMap h = nodeMapFind c.nodeMap h) ∧
    (∀ t, t ∈ (AddNode c id).virtualNodes ↔ t ∈ c.virtualNodes) ∧
    (∀ key, GetNode (AddNode c id) key = GetNode c key) ∧
    (AddNode c id).virtualNodes.length =
      c.virtualNodes.length + virtualNodeCount := by
  have hashesAll : ∀ h ∈ (List.range virtualNodeCount).map (tokenHash id),
      nodeMapFind c.nodeMap h = some id := by
    intro h hh
    obtain ⟨i, hi, rfl⟩ := List.mem_map.mp hh
    exact hmap i (List.mem_range.mp hi)
  have hashesTok : ∀ h ∈ (List.range virtualNodeCount).map (tokenHash id),
      h ∈ c.virtualNodes := by
    intro h hh
    obtain ⟨i, hi, rfl⟩ := List.mem_map.mp hh
    exact htok i (List.mem_range.mp hi)
  have hfold : (AddNode c id).nodeMap =
      ((List.range virtualNodeCount).map (tokenHash id)).foldl
        (fun m h => nodeMapInsert m h id) c.nodeMap := by
    simp only [AddNode]
  have hfind : ∀ h, nodeMapFind (AddNode c id).nodeMap h =
      nodeMapFind c.nodeMap h := by
    intro h
    rw [hfold]
    exact nodeMapFind_foldl_preserved _ id c.nodeMap hashesAll h
  have hmemiff : ∀ t, t ∈ (AddNode c id).virtualNodes ↔ t ∈ c.virtualNodes := by
    intro t
    rw [addNode_mem_iff]
    constructor
    · rintro (h | h)
      · exact h
      · exact hashesTok t h
    · exact Or.inl
  have hne : c.virtualNodes ≠ [] := by
    intro h0
    have := htok 0 (by simp [virtualNodeCount])
    rw [h0] at this
    simp at this
  have hnodes : (AddNode c id).nodes = c.nodes := by
    show nodesInsert c.nodes id = c.nodes
    unfold nodesInsert
    rw [if_pos hmem]
  refine ⟨hnodes, hfind, hmemiff, ?_, addNode_length c id⟩
  intro key
  exact getNode_congr c (AddNode c id) hsorted (addNode_sorted c id)
    hmemiff hfind hne key

theorem addNode_idempotent_amended_witness :
    (AddNode (AddNode NewConsistentHashRing "A") "A").nodes =
      (AddNode NewConsistentHashRing "A").nodes ∧
    (∀ h, nodeMapFind (AddNode (AddNode NewConsistentHashRing "A") "A").nodeMap h =
      nodeMapFind (AddNode NewConsistentHashRing "A").nodeMap h) ∧
    (∀ t, t ∈ (AddNode (AddNode NewConsistentHashRing "A") "A").virtualNodes ↔
      t ∈ (AddNode NewConsistentHashRing "A").virtualNodes) ∧
    (∀ key, GetNode (AddNode (AddNode NewConsistentHashRing "A") "A") key =
      GetNode (AddNode NewConsistentHashRing "A") key) ∧
    (AddNode (AddNode NewConsistentHashRing "A") "A").virtualNodes.length =
      (AddNode NewConsistentHashRing "A").virtualNodes.length +
        virtualNodeCount :=
  addNode_idempotent_amended (AddNode NewConsistentHashRing "A") "A"
    (by
      have hn : (AddNode NewConsistentHashRing "A").nodes =
          nodesInsert NewConsistentHashRing.nodes "A" := by
        simp only [AddNode]
      rw [hn]
      simp [nodesInsert, NewConsistentHashRing])
    (addNode_sorted NewConsistentHashRing "A")
    (fun i hi => by
      rw [addNode_mem_iff]
      exact Or.inr (List.mem_map.mpr ⟨i, List.mem_range.mpr hi, rfl⟩))
    (fun i hi => by
      have hf : (AddNode NewConsistentHashRing "A").nodeMap =
          ((List.range virtualNodeCount).map (tokenHash "A")).foldl
            (fun m h => nodeMapInsert m h "A") NewConsistentHashRing.nodeMap := by
        simp only [AddNode]
      rw [hf, nodeMapFind_foldl_insert]
      rw [if_pos (List.mem_map.mpr ⟨i, List.mem_range.mpr hi, rfl⟩)])

end Dynamo
